import Mathlib

/-!
Verification of the `dxkite/explorer` indexer and search engine.

The Go sources (`src/core/scan.go`, `src/core/stream/stream.go`, and the
search module) are shallowly embedded below.  Go strings are modelled as
`List Char` (`Str`); Go maps (`map[string]bool`) as association lists with
first-occurrence lookup semantics; `time.Time` values as abstract `Nat`
timestamps compared for equality; the filesystem subtree passed to
`filepath.Walk` as a first-child/next-sibling tree (`FsTree`); I/O failures
as boolean fault-injection flags in an `Env` record.  `log.Panicln` and Go
runtime panics are modelled as a distinguished `panic` outcome, separate
from returned errors.
-/

set_option maxHeartbeats 1000000

abbrev Str := List Char

/-! ### Association-list model of Go `map[string]bool`

Lookup of an absent key yields `false` (the Go zero value); insertion
overwrites the first occurrence of the key or appends. -/

def mapLookup : List (Str × Bool) → Str → Bool
  | [], _ => false
  | (k, v) :: rest, key => if k = key then v else mapLookup rest key

def mapHasKey : List (Str × Bool) → Str → Bool
  | [], _ => false
  | (k, _) :: rest, key => if k = key then true else mapHasKey rest key

def mapInsert : List (Str × Bool) → Str → Bool → List (Str × Bool)
  | [], key, v => [(key, v)]
  | (k, w) :: rest, key, v =>
    if k = key then (k, v) :: rest else (k, w) :: mapInsert rest key v

def mapKeys (m : List (Str × Bool)) : List Str := m.map Prod.fst

theorem mapLookup_mapInsert (m : List (Str × Bool)) (k : Str) (v : Bool) (e : Str) :
    mapLookup (mapInsert m k v) e = if k = e then v else mapLookup m e := by
  induction m with
  | nil => simp [mapInsert, mapLookup]
  | cons hd tl ih =>
    obtain ⟨k', v'⟩ := hd
    by_cases hk : k' = k
    · subst hk
      by_cases he : k' = e <;> simp [mapInsert, mapLookup, he]
    · by_cases he : k' = e
      · subst he
        have : ¬ (k = k') := fun h => hk h.symm
        simp [mapInsert, mapLookup, hk, this]
      · simp [mapInsert, mapLookup, hk, he, ih]

theorem mapHasKey_mapInsert (m : List (Str × Bool)) (k : Str) (v : Bool) (e : Str) :
    mapHasKey (mapInsert m k v) e = if k = e then true else mapHasKey m e := by
  induction m with
  | nil => simp [mapInsert, mapHasKey]
  | cons hd tl ih =>
    obtain ⟨k', v'⟩ := hd
    by_cases hk : k' = k
    · subst hk
      by_cases he : k' = e <;> simp [mapInsert, mapHasKey, he]
    · by_cases he : k' = e
      · subst he
        have : ¬ (k = k') := fun h => hk h.symm
        simp [mapInsert, mapHasKey, hk, this]
      · simp [mapInsert, mapHasKey, hk, he, ih]

/-! ### String helpers from the Go standard library -/

/-- `isPrefixList p s` models "`p` is a leading substring of `s`". -/
def isPrefixList : Str → Str → Bool
  | [], _ => true
  | _ :: _, [] => false
  | a :: as, b :: bs => if a = b then isPrefixList as bs else false

/-- `containsSub sub s` models `strings.Index(s, sub) != -1`:
`sub` occurs contiguously inside `s`. -/
def containsSub : Str → Str → Bool
  | sub, [] => isPrefixList sub []
  | sub, b :: bs => isPrefixList sub (b :: bs) || containsSub sub bs

theorem isPrefixList_iff (p s : Str) :
    isPrefixList p s = true ↔ ∃ q, s = p ++ q := by
  induction p generalizing s with
  | nil => simp [isPrefixList]
  | cons a as ih =>
    cases s with
    | nil => simp [isPrefixList]
    | cons b bs =>
      by_cases hab : a = b
      · subst hab
        simp [isPrefixList, ih]
      · simp only [isPrefixList, if_neg hab]
        constructor
        · intro h; cases h
        · rintro ⟨q, h⟩
          simp only [List.cons_append, List.cons.injEq] at h
          exact absurd h.1.symm hab

theorem containsSub_iff (sub s : Str) :
    containsSub sub s = true ↔ ∃ p q, s = p ++ sub ++ q := by
  induction s with
  | nil =>
    simp only [containsSub, isPrefixList_iff]
    constructor
    · rintro ⟨q, h⟩
      exact ⟨[], q, by simpa using h⟩
    · rintro ⟨p, q, h⟩
      have h2 := List.append_eq_nil.mp h.symm
      have h3 := List.append_eq_nil.mp h2.1
      exact ⟨[], by simp [h3.2]⟩
  | cons b bs ih =>
    simp only [containsSub, Bool.or_eq_true, ih, isPrefixList_iff]
    constructor
    · rintro (⟨q, hq⟩ | ⟨p, q, rfl⟩)
      · exact ⟨[], q, by simpa using hq⟩
      · exact ⟨b :: p, q, rfl⟩
    · rintro ⟨p, q, h⟩
      cases p with
      | nil => exact Or.inl ⟨q, by simpa using h⟩
      | cons x xs =>
        right
        refine ⟨xs, q, ?_⟩
        have := congrArg List.tail h
        simpa using this

/-- `strings.TrimPrefix(s, p)`: drop `p` from the front of `s` when it is a
leading substring, otherwise return `s` unchanged. -/
def trimPrefixStr (s p : Str) : Str :=
  if isPrefixList p s then s.drop p.length else s

/-- `normalizePath` (scan.go:231-233): `strings.ReplaceAll(filename, "\\", "/")`. -/
def normalizePath (filename : Str) : Str :=
  filename.map (fun c => if c = '\\' then '/' else c)

/-! ### `getExt` (scan.go:235-241)

`filepath.Ext` scans the path backwards and returns the suffix starting at
the last dot (dot included); it stops at a path separator and returns the
empty string when no dot is found.  `extRevAux` performs that backward scan
over the reversed character list, carrying the characters already passed
(in original order). -/

def extRevAux : List Char → Str → Str
  | [], _ => []
  | c :: rest, acc =>
    if c = '/' then []
    else if c = '.' then '.' :: acc
    else extRevAux rest (c :: acc)

/-- Model of Go `filepath.Ext`. -/
def filepathExt (s : Str) : Str := extRevAux s.reverse []

/-- `getExt` (scan.go:235-241): `filepath.Ext`, then empty when the suffix is
at most the bare dot, else the lower-cased suffix without the dot.
Lower-casing is per-character (agrees with Go `strings.ToLower` on ASCII). -/
def getExt (filename : Str) : Str :=
  let ext := filepathExt filename
  if ext.length ≤ 1 then []
  else (ext.drop 1).map Char.toLower

theorem extRevAux_no_dot (s : List Char) (acc : Str)
    (h : ∀ c ∈ s, c ≠ '.') : extRevAux s acc = [] := by
  induction s generalizing acc with
  | nil => rfl
  | cons c rest ih =>
    have hc : c ≠ '.' := h c (List.mem_cons_self _ _)
    by_cases hsl : c = '/'
    · simp [extRevAux, hsl]
    · simp only [extRevAux, if_neg hsl, if_neg hc]
      exact ih _ (fun x hx => h x (List.mem_cons_of_mem _ hx))

theorem extRevAux_finds_dot (rq : List Char) (r : List Char) (acc : Str)
    (h : ∀ c ∈ rq, c ≠ '.' ∧ c ≠ '/') :
    extRevAux (rq ++ '.' :: r) acc = '.' :: (rq.reverse ++ acc) := by
  induction rq generalizing acc with
  | nil => simp [extRevAux]
  | cons c rest ih =>
    have hc := h c (List.mem_cons_self _ _)
    have hstep : extRevAux ((c :: rest) ++ '.' :: r) acc
        = extRevAux (rest ++ '.' :: r) (c :: acc) := by
      simp [extRevAux, hc.1, hc.2]
    rw [hstep, ih (c :: acc) (fun x hx => h x (List.mem_cons_of_mem _ hx))]
    simp

theorem getExt_after_last_dot (p q : Str) (hdot : '.' ∉ q) (hsep : '/' ∉ q) :
    getExt (p ++ '.' :: q) = q.map Char.toLower := by
  have hrev : (p ++ '.' :: q).reverse = q.reverse ++ '.' :: p.reverse := by
    simp
  have hq : ∀ c ∈ q.reverse, c ≠ '.' ∧ c ≠ '/' := by
    intro c hc
    rw [List.mem_reverse] at hc
    exact ⟨fun h => hdot (h ▸ hc), fun h => hsep (h ▸ hc)⟩
  have hext : filepathExt (p ++ '.' :: q) = '.' :: q := by
    unfold filepathExt
    rw [hrev, extRevAux_finds_dot _ _ _ hq]
    simp
  unfold getExt
  rw [hext]
  cases q with
  | nil => simp
  | cons x xs => simp

theorem getExt_no_dot (s : Str) (hdot : '.' ∉ s) : getExt s = [] := by
  have : filepathExt s = [] := by
    unfold filepathExt
    apply extRevAux_no_dot
    intro c hc
    rw [List.mem_reverse] at hc
    exact fun h => hdot (h ▸ hc)
  unfold getExt
  rw [this]
  simp

/-- C4 (counterexample): the claim says a dotfile such as `".bashrc"` has
empty extension, but `getExt` (via Go `filepath.Ext`, which returns
`".bashrc"` whole) yields `"bashrc"`. -/
theorem getExt_dotfile_cex :
    getExt (String.toList ".bashrc") = String.toList "bashrc" ∧
      getExt (String.toList ".bashrc") ≠ ([] : Str) := by
  constructor
  · decide
  · decide

/-- C4 (amended): the extension is the lower-cased suffix after the last dot
(empty exactly when the filename has no dot or ends in its last dot); a
dotfile keeps its suffix, e.g. `".bashrc" ↦ "bashrc"`.  Stated for filenames,
which contain no path separator after their last dot. -/
theorem getExt_spec :
    (∀ p q : Str, '.' ∉ q → '/' ∉ q →
        getExt (p ++ '.' :: q) = q.map Char.toLower) ∧
      (∀ s : Str, '.' ∉ s → getExt s = []) :=
  ⟨getExt_after_last_dot, getExt_no_dot⟩

/-- C4 witness: computing the extension of `"photo.JPG"` through the amended
theorem gives `"jpg"`. -/
theorem getExt_spec_witness :
    getExt (String.toList "photo.JPG") = String.toList "jpg" := by
  have h := getExt_spec.1 (String.toList "photo") (String.toList "JPG")
    (by decide) (by decide)
  simpa using h

/-! ### File records and the search engine

`FileInfo` embeds the record struct (scan.go:15-20); the search module's
`scan.Index` record carries the same four fields.  `SearchParams` embeds the
filter struct of the search module (fields `Name`, `Tag`, `Ext`, `Path`). -/

structure FileInfo where
  name : Str
  path : Str
  tags : List Str
  ext : Str
deriving DecidableEq

structure SearchParams where
  name : Str
  tag : Str
  ext : Str
  path : Str
deriving DecidableEq

/-- The `for _, t := range fi.Tags` membership loop inside `isMatchSearch`. -/
def tagElemLoop : List Str → Str → Bool
  | [], _ => false
  | t :: ts, tag => if t = tag then true else tagElemLoop ts tag

/-- `isMatchSearch` (search module): early-return chain checking `Path`,
`Name`, `Ext`, `Tag` in that order; an empty criterion is skipped. -/
def isMatchSearch (fi : FileInfo) (m : SearchParams) : Bool :=
  if m.path ≠ [] ∧ containsSub m.path fi.path = false then false
  else if m.name ≠ [] ∧ containsSub m.name fi.name = false then false
  else if m.ext ≠ [] ∧ fi.ext ≠ m.ext then false
  else if m.tag ≠ [] ∧ tagElemLoop fi.tags m.tag = false then false
  else true

theorem tagElemLoop_iff (ts : List Str) (t : Str) :
    tagElemLoop ts t = true ↔ t ∈ ts := by
  induction ts with
  | nil => simp [tagElemLoop]
  | cons x xs ih =>
    simp only [tagElemLoop, List.mem_cons]
    by_cases hx : x = t
    · subst hx; simp
    · have hx2 : ¬ (t = x) := fun h => hx h.symm
      simp [hx, hx2, ih]

theorem crit_str_skip {c : Str} {b : Bool} (h : ¬(c ≠ [] ∧ b = false)) :
    c = [] ∨ b = true := by
  by_cases hc : c = []
  · exact Or.inl hc
  · rcases Bool.eq_false_or_eq_true b with hb | hb
    · exact Or.inr hb
    · exact absurd ⟨hc, hb⟩ h

theorem crit_eq_skip {c d : Str} (h : ¬(c ≠ [] ∧ d ≠ c)) : c = [] ∨ d = c := by
  by_cases hc : c = []
  · exact Or.inl hc
  · by_cases hd : d = c
    · exact Or.inr hd
    · exact absurd ⟨hc, hd⟩ h

/-- C5: the search match predicate is the conjunction of the four criteria,
each vacuously satisfied when its configured value is empty; `name`/`path`
are case-sensitive substring tests, `extension` is exact equality, `tag` is
exact membership in the record's tag sequence. -/
theorem isMatchSearch_spec (fi : FileInfo) (m : SearchParams) :
    isMatchSearch fi m = true ↔
      ((m.name = [] ∨ ∃ p q, fi.name = p ++ m.name ++ q) ∧
       (m.path = [] ∨ ∃ p q, fi.path = p ++ m.path ++ q) ∧
       (m.ext = [] ∨ fi.ext = m.ext) ∧
       (m.tag = [] ∨ m.tag ∈ fi.tags)) := by
  unfold isMatchSearch
  split_ifs with h1 h2 h3 h4
  · refine iff_of_false (by simp) ?_
    rintro ⟨_, hp, _, _⟩
    rcases hp with hp | hp
    · exact h1.1 hp
    · rw [← containsSub_iff] at hp
      rw [h1.2] at hp
      cases hp
  · refine iff_of_false (by simp) ?_
    rintro ⟨hn, _, _, _⟩
    rcases hn with hn | hn
    · exact h2.1 hn
    · rw [← containsSub_iff] at hn
      rw [h2.2] at hn
      cases hn
  · refine iff_of_false (by simp) ?_
    rintro ⟨_, _, he, _⟩
    rcases he with he | he
    · exact h3.1 he
    · exact h3.2 he
  · refine iff_of_false (by simp) ?_
    rintro ⟨_, _, _, ht⟩
    rcases ht with ht | ht
    · exact h4.1 ht
    · rw [← tagElemLoop_iff] at ht
      rw [h4.2] at ht
      cases ht
  · refine iff_of_true rfl ?_
    refine ⟨?_, ?_, ?_, ?_⟩
    · rcases crit_str_skip h2 with h | h
      · exact Or.inl h
      · exact Or.inr ((containsSub_iff _ _).1 h)
    · rcases crit_str_skip h1 with h | h
      · exact Or.inl h
      · exact Or.inr ((containsSub_iff _ _).1 h)
    · exact crit_eq_skip h3
    · rcases crit_str_skip h4 with h | h
      · exact Or.inl h
      · exact Or.inr ((tagElemLoop_iff _ _).1 h)

/-! ### The positional stream and `SearchFile`

`JsonStream.ScanNext` (stream.go:25-34) reports the byte offset at which a
record's encoding begins and decodes the record.  The index file content is
modelled as the list of its decoded records; `recLen` abstracts the byte
length of one encoded record line (JSON text plus trailing newline), so
`withOffsets` assigns each record the offset `ScanNext` would report. -/

def withOffsets (recLen : FileInfo → Nat) : Nat → List FileInfo → List (Nat × FileInfo)
  | _, [] => []
  | off, r :: rs => (off, r) :: withOffsets recLen (off + recLen r) rs

/-- The scan loop of `SearchFile` (search module, lines 38-63): skip
non-matching records; append a match and bump `take`; when `limit` is the
sentinel `-1` keep scanning; otherwise stop once `take >= limit`. -/
def searchLoop (m : SearchParams) (limit : Int) :
    List (Nat × FileInfo) → Int → List (Nat × FileInfo) → List (Nat × FileInfo)
  | [], _, rst => rst
  | (off, fi) :: rest, take, rst =>
    if isMatchSearch fi m = false then searchLoop m limit rest take rst
    else
      let rst2 := rst ++ [(off, fi)]
      let take2 := take + 1
      if limit = -1 then searchLoop m limit rest take2 rst2
      else if limit ≤ take2 then rst2
      else searchLoop m limit rest take2 rst2

/-- `SearchFile` (search module, lines 24-65).  The Go function receives a
starting `offset` parameter but shadows it with the loop's `ScanNext` result
and never seeks the stream, so the parameter is received and ignored here
exactly as in the source: every scan starts at byte 0 of the file. -/
def SearchFile (recLen : FileInfo → Nat) (file : List FileInfo)
    (m : SearchParams) (offset limit : Int) : List (Nat × FileInfo) :=
  searchLoop m limit (withOffsets recLen 0 file) 0 []

/-- The records of the file that satisfy the filter, with their offsets,
in file order. -/
def matchedEntries (recLen : FileInfo → Nat) (file : List FileInfo)
    (m : SearchParams) : List (Nat × FileInfo) :=
  (withOffsets recLen 0 file).filter (fun e => isMatchSearch e.2 m)

/-- C3: the starting-offset parameter of `SearchFile` has no effect on the
result; every search scans from the beginning of the file. -/
theorem searchFile_offset_irrelevant (recLen : FileInfo → Nat)
    (file : List FileInfo) (m : SearchParams) (o1 o2 limit : Int) :
    SearchFile recLen file m o1 limit = SearchFile recLen file m o2 limit := rfl

theorem searchLoop_unbounded (m : SearchParams) (entries : List (Nat × FileInfo)) :
    ∀ take rst, searchLoop m (-1) entries take rst
      = rst ++ entries.filter (fun e => isMatchSearch e.2 m) := by
  induction entries with
  | nil => intro take rst; simp [searchLoop]
  | cons e rest ih =>
    intro take rst
    obtain ⟨off, fi⟩ := e
    by_cases hm : isMatchSearch fi m = false
    · simp [searchLoop, hm, ih, List.filter_cons]
    · have hm' : isMatchSearch fi m = true := by
        rcases Bool.eq_false_or_eq_true (isMatchSearch fi m) with h | h
        · exact h
        · exact absurd h hm
      simp [searchLoop, hm', ih, List.filter_cons]

theorem searchLoop_bounded (m : SearchParams) (limit : Int) (hl : limit ≠ -1)
    (entries : List (Nat × FileInfo)) :
    ∀ take rst, searchLoop m limit entries take rst
      = rst ++ (entries.filter (fun e => isMatchSearch e.2 m)).take
          (max (limit - take) 1).toNat := by
  induction entries with
  | nil => intro take rst; simp [searchLoop]
  | cons e rest ih =>
    intro take rst
    obtain ⟨off, fi⟩ := e
    by_cases hm : isMatchSearch fi m = false
    · simp [searchLoop, hm, ih, List.filter_cons]
    · have hm' : isMatchSearch fi m = true := by
        rcases Bool.eq_false_or_eq_true (isMatchSearch fi m) with h | h
        · exact h
        · exact absurd h hm
      by_cases hstop : limit ≤ take + 1
      · have hone : (max (limit - take) 1).toNat = 1 := by omega
        simp [searchLoop, hm', hl, hstop, List.filter_cons, hone]
      · have hmax : (max (limit - take) 1).toNat = (limit - take).toNat := by omega
        have hmax2 : (max (limit - (take + 1)) 1).toNat = (limit - (take + 1)).toNat := by
          omega
        have hsucc : (limit - take).toNat = (limit - (take + 1)).toNat + 1 := by omega
        have hstep : searchLoop m limit ((off, fi) :: rest) take rst
            = searchLoop m limit rest (take + 1) (rst ++ [(off, fi)]) := by
          simp [searchLoop, hm', hl, hstop]
        rw [hstep, ih (take + 1) (rst ++ [(off, fi)]), List.filter_cons,
          if_pos (by simp [hm']), hmax, hmax2, hsucc, List.take_succ_cons]
        simp

theorem withOffsets_le (recLen : FileInfo → Nat) (l : List FileInfo) :
    ∀ start e, e ∈ withOffsets recLen start l → start ≤ e.1 := by
  induction l with
  | nil => intro start e he; simp [withOffsets] at he
  | cons r rs ih =>
    intro start e he
    simp only [withOffsets, List.mem_cons] at he
    rcases he with rfl | he
    · exact le_refl _
    · have := ih (start + recLen r) e he
      omega

theorem withOffsets_pairwise (recLen : FileInfo → Nat)
    (h : ∀ r, 0 < recLen r) (l : List FileInfo) :
    ∀ start, List.Pairwise (fun a b => a.1 < b.1) (withOffsets recLen start l) := by
  induction l with
  | nil => intro start; simp [withOffsets]
  | cons r rs ih =>
    intro start
    simp only [withOffsets, List.pairwise_cons]
    refine ⟨?_, ih _⟩
    intro e he
    have h1 := withOffsets_le recLen rs (start + recLen r) e he
    have h2 := h r
    omega

/-- C6 (amended): a search returns matching records in file order.  For
`limit ≥ 1` it stops as soon as the accumulated matches reach `limit`
(the result is the first `limit` matches); the sentinel `-1` returns every
match; with `limit = 0`, because the Go loop checks `take >= limit` only
after appending a match, the result is the first match rather than the
empty list.  When every record encoding is at least one byte long, result
ids are strictly ascending byte offsets. -/
theorem searchFile_spec :
    (∀ recLen file m off (limit : Int), 1 ≤ limit →
        SearchFile recLen file m off limit
          = (matchedEntries recLen file m).take limit.toNat) ∧
      (∀ recLen file m off,
        SearchFile recLen file m off (-1) = matchedEntries recLen file m) ∧
      (∀ recLen file m off,
        SearchFile recLen file m off 0 = (matchedEntries recLen file m).take 1) ∧
      (∀ recLen file m off limit, (∀ r, 0 < recLen r) →
        List.Pairwise (fun a b => a.1 < b.1) (SearchFile recLen file m off limit)) := by
  have hbound : ∀ recLen file m (off limit : Int), limit ≠ -1 →
      SearchFile recLen file m off limit
        = (matchedEntries recLen file m).take (max limit 1).toNat := by
    intro recLen file m off limit hl
    unfold SearchFile matchedEntries
    rw [searchLoop_bounded m limit hl _ 0 []]
    simp
  refine ⟨?_, ?_, ?_, ?_⟩
  · intro recLen file m off limit h1
    rw [hbound recLen file m off limit (by omega)]
    congr 1
    omega
  · intro recLen file m off
    unfold SearchFile matchedEntries
    rw [searchLoop_unbounded m _ 0 []]
    simp
  · intro recLen file m off
    rw [hbound recLen file m off 0 (by omega)]
    congr 1
  · intro recLen file m off limit h
    by_cases hl : limit = -1
    · subst hl
      unfold SearchFile
      rw [searchLoop_unbounded m _ 0 []]
      simp only [List.nil_append]
      exact (withOffsets_pairwise recLen h file 0).sublist (List.filter_sublist _)
    · rw [hbound recLen file m off limit hl]
      exact (withOffsets_pairwise recLen h file 0).sublist
        ((List.take_sublist _ _).trans (List.filter_sublist _))

/-- Concrete fixtures for search examples: a constant record length and two
records that match the empty filter. -/
def cexRecLen : FileInfo → Nat := fun _ => 16

def cexRec1 : FileInfo :=
  { name := String.toList "a.txt", path := String.toList "/x/a.txt",
    tags := [String.toList "x"], ext := String.toList "txt" }

def cexRec2 : FileInfo :=
  { name := String.toList "b.txt", path := String.toList "/y/b.txt",
    tags := [String.toList "y"], ext := String.toList "txt" }

def emptyParams : SearchParams := { name := [], tag := [], ext := [], path := [] }

/-- C6 (counterexample): with `limit = 0` and one matching record, the claim
("stop as soon as accumulated matches reach `limit`") predicts the empty
result `take 0`, but `SearchFile` appends the first match before checking
the limit and returns it. -/
theorem searchFile_limit_zero_cex :
    SearchFile cexRecLen [cexRec1] emptyParams 0 0 = [(0, cexRec1)] ∧
      SearchFile cexRecLen [cexRec1] emptyParams 0 0
        ≠ (matchedEntries cexRecLen [cexRec1] emptyParams).take (Int.toNat 0) := by
  constructor
  · decide
  · decide

/-- C6 witness: with `limit = 1` and two matching records `R1, R2` in file
order the amended theorem yields exactly `[R1]`. -/
theorem searchFile_spec_witness :
    SearchFile cexRecLen [cexRec1, cexRec2] emptyParams 0 1 = [(0, cexRec1)] := by
  have h := searchFile_spec.1 cexRecLen [cexRec1, cexRec2] emptyParams 0 1 (by decide)
  rw [h]
  decide

/-! ### The tag pattern and `parseTag` (scan.go:222-229)

Go's `regexp` package is external to the repository; a compiled pattern is
modelled abstractly as the function `FindAllStringSubmatch` it provides:
for each non-overlapping match, in match order, a slice whose entry 0 is
the whole match and whose entry `i` is capture group `i`, so each slice has
length `NumSubexp + 1`.  `bracketWordReg` below is a concrete executable
instance for the pattern `\[(\w+)\]`. -/

structure GoRegexp where
  numSubexp : Nat
  findAllSubmatch : Str → List (List Str)
  submatch_len : ∀ s m, m ∈ findAllSubmatch s → m.length = numSubexp + 1

/-- The `for _, m := range matches { tags = append(tags, m[1]) }` loop of
`parseTag`; `none` models the index-out-of-range runtime panic when a match
slice has no entry 1. -/
def collectGroup1 : List (List Str) → List Str → Option (List Str)
  | [], tags => some tags
  | m :: ms, tags =>
    match m.get? 1 with
    | none => none
    | some t => collectGroup1 ms (tags ++ [t])

/-- `parseTag` (scan.go:222-229).  Returns the collected group-1 strings
paired with the Go error result, which is the literal `nil` (`none`) on
every path; `none` overall models a runtime panic from `m[1]`. -/
def parseTag (name : Str) (reg : GoRegexp) : Option (List Str × Option Str) :=
  match collectGroup1 (reg.findAllSubmatch name) [] with
  | none => none
  | some tags => some (tags, none)

/-- `\w` (word character): ASCII letter, digit or underscore. -/
def isWordChar (c : Char) : Bool :=
  ('a' ≤ c ∧ c ≤ 'z') ∨ ('A' ≤ c ∧ c ≤ 'Z') ∨ ('0' ≤ c ∧ c ≤ '9') ∨ c = '_'

/-- Leftmost, non-overlapping matching of the pattern `\[(\w+)\]`: at a
`'['`, a maximal nonempty run of word characters followed by `']'` is a
match (group 0 the whole bracketed text, group 1 the run), and scanning
resumes after the `']'`; otherwise scanning advances one character.  `fuel`
only bounds recursion depth; it is spent one unit per consumed character,
and every call site supplies the string length. -/
def bracketFindAllAux : Nat → Str → List (List Str)
  | 0, _ => []
  | _ + 1, [] => []
  | fuel + 1, c :: cs =>
    if c = '[' then
      match cs.takeWhile isWordChar, cs.dropWhile isWordChar with
      | w :: ws, ']' :: r2 =>
        ['[' :: ((w :: ws) ++ [']']), w :: ws] :: bracketFindAllAux fuel r2
      | _, _ => bracketFindAllAux fuel cs
    else bracketFindAllAux fuel cs

def bracketFindAll (s : Str) : List (List Str) := bracketFindAllAux s.length s

theorem bracketFindAllAux_len (fuel : Nat) (s : Str) :
    ∀ m ∈ bracketFindAllAux fuel s, m.length = 2 := by
  induction fuel generalizing s with
  | zero => intro m hm; simp [bracketFindAllAux] at hm
  | succ n ih =>
    intro m hm
    cases s with
    | nil => simp [bracketFindAllAux] at hm
    | cons c cs =>
      by_cases hc : c = '['
      · simp only [bracketFindAllAux, if_pos hc] at hm
        split at hm
        · simp only [List.mem_cons] at hm
          rcases hm with rfl | hm
          · rfl
          · exact ih _ m hm
        · exact ih cs m hm
      · simp only [bracketFindAllAux, if_neg hc] at hm
        exact ih cs m hm

/-- The compiled form of the configured pattern `\[(\w+)\]`: one capture
group; `FindAllStringSubmatch` yields `[whole, group1]` per match. -/
def bracketWordReg : GoRegexp where
  numSubexp := 1
  findAllSubmatch := bracketFindAll
  submatch_len := fun s m hm => bracketFindAllAux_len s.length s m hm

/-- A compiled pattern with zero capture groups (the literal pattern `a`):
each match slice holds only the whole match. -/
def litAFindAll (s : Str) : List (List Str) :=
  (s.filter (fun c => c = 'a')).map (fun c => [[c]])

def litAReg : GoRegexp where
  numSubexp := 0
  findAllSubmatch := litAFindAll
  submatch_len := by
    intro s m hm
    simp only [litAFindAll, List.mem_map] at hm
    obtain ⟨c, _, rfl⟩ := hm
    rfl

theorem collectGroup1_some (ms : List (List Str)) :
    ∀ acc tags, collectGroup1 ms acc = some tags →
      tags = acc ++ ms.map (fun m => m.getD 1 []) := by
  induction ms with
  | nil =>
    intro acc tags h
    simp only [collectGroup1, Option.some.injEq] at h
    simp [h.symm]
  | cons m ms ih =>
    intro acc tags h
    simp only [collectGroup1] at h
    cases hg : m.get? 1 with
    | none => rw [hg] at h; cases h
    | some t =>
      rw [hg] at h
      have hgd : m.getD 1 [] = t := by
        rw [List.getD_eq_getElem?_getD, ← List.get?_eq_getElem?, hg]
        rfl
      have hg2 : m[1]? = some t := by rw [← List.get?_eq_getElem?]; exact hg
      rw [ih _ _ h]
      simp [hgd, hg2]

theorem collectGroup1_isSome (ms : List (List Str))
    (h : ∀ m ∈ ms, 2 ≤ m.length) :
    ∀ acc, (collectGroup1 ms acc).isSome = true := by
  induction ms with
  | nil => intro acc; simp [collectGroup1]
  | cons m ms ih =>
    intro acc
    have h2 : 2 ≤ m.length := h m (List.mem_cons_self _ _)
    have h1 : (1 : Nat) < m.length := by omega
    simp only [collectGroup1, List.get?_eq_getElem?, List.getElem?_eq_getElem h1]
    exact ih (fun x hx => h x (List.mem_cons_of_mem _ hx)) _

/-- C8: the extracted tag sequence is the first capture group of each
non-overlapping match, in match order, duplicates preserved; in particular
for the pattern `\[(\w+)\]` the filename `"photo[cat][2024].jpg"` yields
`["cat", "2024"]` in that order, and `"a[x]b[x].txt"` keeps the duplicate
`"x"`. -/
theorem parseTag_spec :
    (∀ reg name tags err, parseTag name reg = some (tags, err) →
        tags = (reg.findAllSubmatch name).map (fun m => m.getD 1 [])) ∧
      parseTag (String.toList "photo[cat][2024].jpg") bracketWordReg
        = some ([String.toList "cat", String.toList "2024"], none) ∧
      parseTag (String.toList "a[x]b[x].txt") bracketWordReg
        = some ([String.toList "x", String.toList "x"], none) := by
  refine ⟨?_, by decide, by decide⟩
  intro reg name tags err h
  unfold parseTag at h
  cases hg : collectGroup1 (reg.findAllSubmatch name) [] with
  | none => rw [hg] at h; cases h
  | some t =>
    rw [hg] at h
    cases h
    simpa using collectGroup1_some _ _ _ hg

/-- C8 witness: the general part of the theorem applied to the concrete
pattern and filename of the spec example. -/
theorem parseTag_spec_witness :
    [String.toList "cat", String.toList "2024"]
      = (bracketWordReg.findAllSubmatch
          (String.toList "photo[cat][2024].jpg")).map (fun m => m.getD 1 []) :=
  parseTag_spec.1 bracketWordReg (String.toList "photo[cat][2024].jpg")
    [String.toList "cat", String.toList "2024"] none (by decide)

/-- C9: `parseTag` indexes capture group 1 of every match without a guard:
it is total when the compiled pattern has at least one capture group, its
Go error result is `nil` on every completed run, and for a pattern with
zero capture groups that matches the filename the access is out of bounds
(a runtime panic, modelled as `none`). -/
theorem parseTag_panic_spec :
    (∀ reg name, 1 ≤ reg.numSubexp → (parseTag name reg).isSome = true) ∧
      (∀ reg name r, parseTag name reg = some r → r.2 = none) ∧
      parseTag (String.toList "a") litAReg = none := by
  refine ⟨?_, ?_, by decide⟩
  · intro reg name hn
    have hlen : ∀ m ∈ reg.findAllSubmatch name, 2 ≤ m.length := by
      intro m hm
      rw [reg.submatch_len name m hm]
      omega
    have h := collectGroup1_isSome (reg.findAllSubmatch name) hlen []
    unfold parseTag
    cases hg : collectGroup1 (reg.findAllSubmatch name) [] with
    | none => rw [hg] at h; simp at h
    | some t => rfl
  · intro reg name r h
    unfold parseTag at h
    cases hg : collectGroup1 (reg.findAllSubmatch name) [] with
    | none => rw [hg] at h; cases h
    | some t => rw [hg] at h; cases h; rfl

/-- C9 witness: totality applied to the one-group pattern `\[(\w+)\]` on a
concrete filename. -/
theorem parseTag_panic_spec_witness :
    (parseTag (String.toList "photo[cat][2024].jpg") bracketWordReg).isSome = true :=
  parseTag_panic_spec.1 bracketWordReg (String.toList "photo[cat][2024].jpg") (by decide)

/-! ### The indexer (scan.go)

`Create` is embedded as a function of a `ScanConfig`, an environment `Env`
describing what the filesystem and clock return during this run (the stat
result for the source root, the walked subtree, and fault-injection flags
for each file the build writes), and the current contents of the data root.
The data-root contents before/after the call make the write-nothing and
write-ordering claims directly expressible. -/

abbrev GoTime := Nat

structure MetaData where
  lastUpdate : GoTime
  createTime : GoTime
deriving DecidableEq

structure ScanConfig where
  ignoreName : List Str
  ignoreExt : List Str
  tagExpr : Option GoRegexp

structure IndexCreator where
  ignoreNameMap : List (Str × Bool)
  extMap : List (Str × Bool)
  tagMap : List (Str × Bool)

/-- `NewIndexCreator` (scan.go:45-61): preload `ignoreNameMap` with the
ignore names and `extMap` with the ignore extensions (both mapped to
`true`); `tagMap` starts empty.  `tagExpr` holds the compiled pattern, or
`none` when `regexp.Compile` fails (a `log.Panicln` inside
`createIndexFile`). -/
def NewIndexCreator (cfg : ScanConfig) : IndexCreator :=
  { ignoreNameMap := cfg.ignoreName.foldl (fun mp v => mapInsert mp v true) []
    extMap := cfg.ignoreExt.foldl (fun mp v => mapInsert mp v true) []
    tagMap := [] }

/-- The subtree under the source root in first-child/next-sibling form;
`statErr` marks an entry whose stat failed, so `filepath.Walk` hands the
callback a non-nil `err` (and does not descend into it). -/
inductive FsTree where
  | nil
  | file (name : Str) (statErr : Bool) (next : FsTree)
  | dir (name : Str) (statErr : Bool) (children : FsTree) (next : FsTree)
deriving DecidableEq

/-- State mutated by the walk callback: records written to the index file so
far, and the creator's `extMap` / `tagMap`. -/
structure WalkSt where
  recs : List FileInfo
  extMap : List (Str × Bool)
  tagMap : List (Str × Bool)
deriving DecidableEq

structure WalkCtx where
  ignoreNameMap : List (Str × Bool)
  reg : GoRegexp
  absRootPath : Str

/-- The walk callback body for a regular file (scan.go:116-170): skip on
stat error, ignored name, or ignored/already-seen-`true` extension; else
mark the extension seen (`false`), extract tags into `tagMap`, and append
the record.  `none` models a panic escaping the callback. -/
def walkFile (ctx : WalkCtx) (s : WalkSt) (name cur : Str) (statErr : Bool) :
    Option WalkSt :=
  if statErr then some s
  else
    let ext := getExt name
    if mapLookup ctx.ignoreNameMap name then some s
    else if mapLookup s.extMap ext then some s
    else
      let s1 : WalkSt := { s with extMap := mapInsert s.extMap ext false }
      match parseTag name ctx.reg with
      | none => none
      | some (_, some _) => none
      | some (tags, none) =>
        let s2 : WalkSt :=
          { s1 with tagMap := tags.foldl (fun mp v => mapInsert mp v true) s1.tagMap }
        let filePath := normalizePath (trimPrefixStr cur ctx.absRootPath)
        some { s2 with
          recs := s2.recs ++ [{ name := name, path := filePath, tags := tags, ext := ext }] }

/-- `filepath.Walk` over the sibling list of a directory whose joined path
is `dir`: each entry's path is `dir + "/" + name`; an ignored directory
returns `filepath.SkipDir` (no descent), a stat-errored one is not entered. -/
def walkForest (ctx : WalkCtx) : FsTree → Str → WalkSt → Option WalkSt
  | FsTree.nil, _, s => some s
  | FsTree.file n serr next, dir, s =>
    match walkFile ctx s n (dir ++ '/' :: n) serr with
    | none => none
    | some s2 => walkForest ctx next dir s2
  | FsTree.dir n serr children next, dir, s =>
    match (if serr then some s
           else if mapLookup ctx.ignoreNameMap n then some s
           else walkForest ctx children (dir ++ '/' :: n) s) with
    | none => none
    | some s2 => walkForest ctx next dir s2

/-- The walk entered at the root itself: `filepath.Walk(root, fn)` visits
the root entry under the path `root` (no join), then its children; the
root's siblings are never visited. -/
def walkRoot (ctx : WalkCtx) (t : FsTree) (rootPath : Str) (s : WalkSt) :
    Option WalkSt :=
  match t with
  | FsTree.nil => some s
  | FsTree.file n serr _ => walkFile ctx s n rootPath serr
  | FsTree.dir n serr children _ =>
    if serr then some s
    else if mapLookup ctx.ignoreNameMap n then some s
    else walkForest ctx children rootPath s

/-- Contents of the four output files under the data root; `none` means the
file is absent or unparseable. -/
structure DataRootState where
  indexFile : Option (List FileInfo)
  extFile : Option (List (Str × Bool))
  tagFile : Option (List Str)
  metaFile : Option MetaData
deriving DecidableEq

/-- `getMeta` (scan.go:173-185): a missing or corrupt metadata file yields
the zero-valued metadata, never an error. -/
def getMeta (st : DataRootState) : MetaData :=
  st.metaFile.getD { lastUpdate := 0, createTime := 0 }

/-- What the outside world supplies to one `Create` run: the root stat
result (`none` = stat error), the clock, the walked subtree, and a fault
flag per file operation. -/
structure Env where
  statRoot : Option GoTime
  now : GoTime
  root : FsTree
  rootPath : Str
  mkdirErr : Bool
  openIndexErr : Bool
  writeIndexErr : Bool
  writeExtErr : Bool
  writeTagErr : Bool
  writeMetaErr : Bool

inductive BuildResult where
  | ok (st : DataRootState)
  | err (st : DataRootState)
  | panic (st : DataRootState)
deriving DecidableEq

/-- The walk context `createIndexFile` assembles: the creator's ignore-name
map, the compiled pattern, and `filepath.Abs(root)` (the root path itself,
assumed absolute and clean). -/
def walkCtxOf (ic : IndexCreator) (reg : GoRegexp) (rootPath : Str) : WalkCtx :=
  { ignoreNameMap := ic.ignoreNameMap, reg := reg, absRootPath := rootPath }

/-- The walk state at the start of `createIndexFile`: no records written,
`extMap`/`tagMap` as preloaded by `NewIndexCreator`. -/
def walkSt0 (ic : IndexCreator) : WalkSt :=
  { recs := [], extMap := ic.extMap, tagMap := ic.tagMap }

/-- The rebuild pipeline of `Create` after the skip check (scan.go:77-92):
`createIndexFile` (compile pattern — `log.Panicln` on failure; `MkdirAll` —
`log.Panicln` on failure; open with `O_TRUNC`; walk), then
`createExtListFile`, `createTagListFile`, and last the metadata write.
Each write failure aborts with the files written so far. -/
def createRest (cfg : ScanConfig) (env : Env) (ic : IndexCreator)
    (meta : MetaData) (st : DataRootState) : BuildResult :=
  match cfg.tagExpr with
  | none => BuildResult.panic st
  | some reg =>
    if env.mkdirErr then BuildResult.panic st
    else if env.openIndexErr then BuildResult.err st
    else
      let st1 : DataRootState := { st with indexFile := some [] }
      if env.writeIndexErr then BuildResult.err st1
      else
        match walkRoot (walkCtxOf ic reg env.rootPath) env.root env.rootPath
            (walkSt0 ic) with
        | none => BuildResult.panic st1
        | some ws =>
          let st2 : DataRootState := { st1 with indexFile := some ws.recs }
          if env.writeExtErr then BuildResult.err st2
          else
            let st3 : DataRootState := { st2 with extFile := some ws.extMap }
            if env.writeTagErr then BuildResult.err st3
            else
              let st4 : DataRootState := { st3 with tagFile := some (mapKeys ws.tagMap) }
              if env.writeMetaErr then BuildResult.err st4
              else BuildResult.ok { st4 with metaFile := some meta }

/-- `Create` (scan.go:64-93): load the stored metadata; when the root stats
cleanly and its modification time equals the stored `last_update`, return
`nil` at once (nothing written); otherwise refresh the metadata timestamps
(only when the stat succeeded) and run the rebuild pipeline. -/
def Create (cfg : ScanConfig) (env : Env) (st : DataRootState) : BuildResult :=
  let ic := NewIndexCreator cfg
  let meta := getMeta st
  match env.statRoot with
  | some t =>
    if t = meta.lastUpdate then BuildResult.ok st
    else createRest cfg env ic { meta with createTime := env.now, lastUpdate := t } st
  | none => createRest cfg env ic meta st

theorem foldl_mapInsert_true_lookup (l : List Str) :
    ∀ mp e, mapLookup (l.foldl (fun mp v => mapInsert mp v true) mp) e = true ↔
      (e ∈ l ∨ mapLookup mp e = true) := by
  induction l with
  | nil => intro mp e; simp
  | cons x xs ih =>
    intro mp e
    simp only [List.foldl_cons, ih, mapLookup_mapInsert, List.mem_cons]
    by_cases hx : x = e
    · simp [hx]
    · have hx2 : ¬ (e = x) := fun h => hx h.symm
      simp [hx, hx2]

theorem foldl_mapInsert_true_hasKey (l : List Str) :
    ∀ mp e, mapHasKey (l.foldl (fun mp v => mapInsert mp v true) mp) e = true ↔
      (e ∈ l ∨ mapHasKey mp e = true) := by
  induction l with
  | nil => intro mp e; simp
  | cons x xs ih =>
    intro mp e
    simp only [List.foldl_cons, ih, mapHasKey_mapInsert, List.mem_cons]
    by_cases hx : x = e
    · simp [hx]
    · have hx2 : ¬ (e = x) := fun h => hx h.symm
      simp [hx, hx2]

/-- The invariant connecting a walk state to a later one: records only
accumulate; a key held at `true` in `extMap` (an ignored extension) stays
`true` and never labels a newly appended record; and the keys of `extMap`
grow exactly by the extensions of the appended records. -/
def WalkStep (s s' : WalkSt) : Prop :=
  ∃ new, s'.recs = s.recs ++ new
    ∧ (∀ e, mapLookup s.extMap e = true →
        mapLookup s'.extMap e = true ∧ ∀ fi ∈ new, fi.ext ≠ e)
    ∧ (∀ e, mapHasKey s'.extMap e = true ↔
        (mapHasKey s.extMap e = true ∨ ∃ fi ∈ new, fi.ext = e))

theorem walkStep_refl (s : WalkSt) : WalkStep s s :=
  ⟨[], by simp, fun e h => ⟨h, by simp⟩, fun e => by simp⟩

theorem walkStep_trans {s1 s2 s3 : WalkSt}
    (h12 : WalkStep s1 s2) (h23 : WalkStep s2 s3) : WalkStep s1 s3 := by
  obtain ⟨n1, hr1, hl1, hk1⟩ := h12
  obtain ⟨n2, hr2, hl2, hk2⟩ := h23
  refine ⟨n1 ++ n2, by rw [hr2, hr1, List.append_assoc], ?_, ?_⟩
  · intro e he
    have h1 := hl1 e he
    have h2 := hl2 e h1.1
    refine ⟨h2.1, ?_⟩
    intro fi hfi
    rcases List.mem_append.mp hfi with h | h
    · exact h1.2 fi h
    · exact h2.2 fi h
  · intro e
    rw [hk2, hk1]
    constructor
    · rintro ((h | ⟨fi, hfi, hext⟩) | ⟨fi, hfi, hext⟩)
      · exact Or.inl h
      · exact Or.inr ⟨fi, List.mem_append.mpr (Or.inl hfi), hext⟩
      · exact Or.inr ⟨fi, List.mem_append.mpr (Or.inr hfi), hext⟩
    · rintro (h | ⟨fi, hfi, hext⟩)
      · exact Or.inl (Or.inl h)
      · rcases List.mem_append.mp hfi with h2 | h2
        · exact Or.inl (Or.inr ⟨fi, h2, hext⟩)
        · exact Or.inr ⟨fi, h2, hext⟩

theorem walkFile_step (ctx : WalkCtx) (s : WalkSt) (n cur : Str) (serr : Bool)
    (s' : WalkSt) (h : walkFile ctx s n cur serr = some s') : WalkStep s s' := by
  simp only [walkFile] at h
  split_ifs at h with h1 h2 h3
  · cases h; exact walkStep_refl _
  · cases h; exact walkStep_refl _
  · cases h; exact walkStep_refl _
  · split at h
    · cases h
    · cases h
    · cases h
      rename_i tags heq
      refine ⟨[⟨n, normalizePath (trimPrefixStr cur ctx.absRootPath), tags, getExt n⟩],
        by simp, ?_, ?_⟩
      · intro e he
        have hne : getExt n ≠ e := by
          intro hcontra
          rw [hcontra] at h3
          exact h3 he
        constructor
        · simp only [mapLookup_mapInsert, if_neg hne]
          exact he
        · intro fi hfi
          simp only [List.mem_singleton] at hfi
          subst hfi
          exact hne
      · intro e
        simp only [mapHasKey_mapInsert, List.mem_singleton]
        by_cases hge : getExt n = e
        · simp [hge]
        · simp only [if_neg hge]
          constructor
          · intro hk; exact Or.inl hk
          · rintro (hk | ⟨fi, rfl, hext⟩)
            · exact hk
            · exact absurd hext hge

theorem walkForest_step (ctx : WalkCtx) (t : FsTree) :
    ∀ dr s s', walkForest ctx t dr s = some s' → WalkStep s s' := by
  induction t with
  | nil =>
    intro dr s s' h
    cases h
    exact walkStep_refl _
  | file n serr next ih =>
    intro dr s s' h
    unfold walkForest at h
    cases hf : walkFile ctx s n (dr ++ '/' :: n) serr with
    | none => rw [hf] at h; cases h
    | some s2 =>
      rw [hf] at h
      exact walkStep_trans (walkFile_step _ _ _ _ _ _ hf) (ih dr s2 s' h)
  | dir n serr children next ihc ihn =>
    intro dr s s' h
    unfold walkForest at h
    cases hf : (if serr then some s
        else if mapLookup ctx.ignoreNameMap n then some s
        else walkForest ctx children (dr ++ '/' :: n) s) with
    | none => rw [hf] at h; cases h
    | some s2 =>
      rw [hf] at h
      have hstep : WalkStep s s2 := by
        split_ifs at hf with h1 h2
        · cases hf; exact walkStep_refl _
        · cases hf; exact walkStep_refl _
        · exact ihc _ _ _ hf
      exact walkStep_trans hstep (ihn dr s2 s' h)

theorem walkRoot_step (ctx : WalkCtx) (t : FsTree) (rootPath : Str)
    (s s' : WalkSt) (h : walkRoot ctx t rootPath s = some s') : WalkStep s s' := by
  cases t with
  | nil => cases h; exact walkStep_refl _
  | file n serr next => exact walkFile_step _ _ _ _ _ _ h
  | dir n serr children next =>
    simp only [walkRoot] at h
    split_ifs at h with h1 h2
    · cases h; exact walkStep_refl _
    · cases h; exact walkStep_refl _
    · exact walkForest_step ctx children rootPath s s' h

theorem bool_ne_true {b : Bool} (h : ¬ b = true) : b = false := by
  cases b
  · rfl
  · exact absurd rfl h

theorem createRest_ok (cfg : ScanConfig) (env : Env) (ic : IndexCreator)
    (meta : MetaData) (st st' : DataRootState)
    (h : createRest cfg env ic meta st = BuildResult.ok st') :
    ∃ reg ws, cfg.tagExpr = some reg ∧
      env.mkdirErr = false ∧ env.openIndexErr = false ∧ env.writeIndexErr = false ∧
      env.writeExtErr = false ∧ env.writeTagErr = false ∧ env.writeMetaErr = false ∧
      walkRoot (walkCtxOf ic reg env.rootPath) env.root env.rootPath (walkSt0 ic) = some ws ∧
      st' = { indexFile := some ws.recs, extFile := some ws.extMap,
              tagFile := some (mapKeys ws.tagMap), metaFile := some meta } := by
  cases hreg : cfg.tagExpr with
  | none =>
    simp only [createRest, hreg] at h
    cases h
  | some reg =>
    simp only [createRest, hreg] at h
    by_cases h1 : env.mkdirErr = true
    · rw [if_pos h1] at h; cases h
    · rw [if_neg h1] at h
      by_cases h2 : env.openIndexErr = true
      · rw [if_pos h2] at h; cases h
      · rw [if_neg h2] at h
        by_cases h3 : env.writeIndexErr = true
        · rw [if_pos h3] at h; cases h
        · rw [if_neg h3] at h
          cases hw : walkRoot (walkCtxOf ic reg env.rootPath) env.root env.rootPath (walkSt0 ic) with
          | none => simp only [hw] at h; cases h
          | some ws =>
            simp only [hw] at h
            by_cases h4 : env.writeExtErr = true
            · rw [if_pos h4] at h; cases h
            · rw [if_neg h4] at h
              by_cases h5 : env.writeTagErr = true
              · rw [if_pos h5] at h; cases h
              · rw [if_neg h5] at h
                by_cases h6 : env.writeMetaErr = true
                · rw [if_pos h6] at h; cases h
                · rw [if_neg h6] at h
                  cases h
                  exact ⟨reg, ws, rfl, bool_ne_true h1, bool_ne_true h2,
                    bool_ne_true h3, bool_ne_true h4, bool_ne_true h5,
                    bool_ne_true h6, hw, rfl⟩

theorem createRest_err (cfg : ScanConfig) (env : Env) (ic : IndexCreator)
    (meta : MetaData) (st st' : DataRootState)
    (h : createRest cfg env ic meta st = BuildResult.err st') :
    st'.metaFile = st.metaFile := by
  cases hreg : cfg.tagExpr with
  | none =>
    simp only [createRest, hreg] at h
    cases h
  | some reg =>
    simp only [createRest, hreg] at h
    by_cases h1 : env.mkdirErr = true
    · rw [if_pos h1] at h; cases h
    · rw [if_neg h1] at h
      by_cases h2 : env.openIndexErr = true
      · rw [if_pos h2] at h; cases h; rfl
      · rw [if_neg h2] at h
        by_cases h3 : env.writeIndexErr = true
        · rw [if_pos h3] at h; cases h; rfl
        · rw [if_neg h3] at h
          cases hw : walkRoot (walkCtxOf ic reg env.rootPath) env.root env.rootPath (walkSt0 ic) with
          | none => simp only [hw] at h; cases h
          | some ws =>
            simp only [hw] at h
            by_cases h4 : env.writeExtErr = true
            · rw [if_pos h4] at h; cases h; rfl
            · rw [if_neg h4] at h
              by_cases h5 : env.writeTagErr = true
              · rw [if_pos h5] at h; cases h; rfl
              · rw [if_neg h5] at h
                by_cases h6 : env.writeMetaErr = true
                · rw [if_pos h6] at h; cases h; rfl
                · rw [if_neg h6] at h; cases h

theorem create_ok_cases (cfg : ScanConfig) (env : Env) (st st' : DataRootState)
    (h : Create cfg env st = BuildResult.ok st') :
    (st' = st ∧ ∀ t, env.statRoot = some t → (getMeta st).lastUpdate = t) ∨
      ∃ reg ws meta, cfg.tagExpr = some reg ∧
        env.mkdirErr = false ∧ env.openIndexErr = false ∧ env.writeIndexErr = false ∧
        env.writeExtErr = false ∧ env.writeTagErr = false ∧ env.writeMetaErr = false ∧
        walkRoot (walkCtxOf (NewIndexCreator cfg) reg env.rootPath) env.root
          env.rootPath (walkSt0 (NewIndexCreator cfg)) = some ws ∧
        (env.statRoot = none → meta = getMeta st) ∧
        (∀ t, env.statRoot = some t → meta.lastUpdate = t) ∧
        st' = { indexFile := some ws.recs, extFile := some ws.extMap,
                tagFile := some (mapKeys ws.tagMap), metaFile := some meta } := by
  simp only [Create] at h
  cases hstat : env.statRoot with
  | some t =>
    simp only [hstat] at h
    by_cases heq : t = (getMeta st).lastUpdate
    · rw [if_pos heq] at h
      cases h
      refine Or.inl ⟨rfl, ?_⟩
      intro t2 ht2
      cases ht2
      exact heq.symm
    · rw [if_neg heq] at h
      obtain ⟨reg, ws, hr, f1, f2, f3, f4, f5, f6, hw, hst⟩ :=
        createRest_ok _ _ _ _ _ _ h
      refine Or.inr ⟨reg, ws, _, hr, f1, f2, f3, f4, f5, f6, hw, ?_, ?_, hst⟩
      · intro hc; cases hc
      · intro t' ht'
        cases ht'
        rfl
  | none =>
    simp only [hstat] at h
    obtain ⟨reg, ws, hr, f1, f2, f3, f4, f5, f6, hw, hst⟩ :=
      createRest_ok _ _ _ _ _ _ h
    refine Or.inr ⟨reg, ws, _, hr, f1, f2, f3, f4, f5, f6, hw, fun _ => rfl, ?_, hst⟩
    intro t' ht'
    cases ht'

theorem create_err_meta_unchanged (cfg : ScanConfig) (env : Env)
    (st st' : DataRootState) (h : Create cfg env st = BuildResult.err st') :
    st'.metaFile = st.metaFile := by
  simp only [Create] at h
  cases hstat : env.statRoot with
  | some t =>
    simp only [hstat] at h
    by_cases heq : t = (getMeta st).lastUpdate
    · rw [if_pos heq] at h; cases h
    · rw [if_neg heq] at h
      exact createRest_err _ _ _ _ _ _ h
  | none =>
    simp only [hstat] at h
    exact createRest_err _ _ _ _ _ _ h

/-- C2: when the modification time that `Create` observes for the source
root equals the `last_update` stored in the metadata loaded from the data
root, `Create` returns success leaving all four output files untouched;
hence after any successful `Create`, a second call observing the same
modification time also succeeds and leaves the data root byte-identical. -/
theorem create_skip_idempotent :
    (∀ cfg env st t, env.statRoot = some t → (getMeta st).lastUpdate = t →
        Create cfg env st = BuildResult.ok st) ∧
      (∀ cfg env1 env2 st st1 t, env1.statRoot = some t →
        env2.statRoot = some t → Create cfg env1 st = BuildResult.ok st1 →
        Create cfg env2 st1 = BuildResult.ok st1) := by
  have hskip : ∀ cfg env st t, env.statRoot = some t →
      (getMeta st).lastUpdate = t → Create cfg env st = BuildResult.ok st := by
    intro cfg env st t hstat hup
    simp only [Create, hstat]
    rw [if_pos hup.symm]
  refine ⟨hskip, ?_⟩
  intro cfg env1 env2 st st1 t h1 h2 hc
  rcases create_ok_cases _ _ _ _ hc with ⟨rfl, hlast⟩ |
    ⟨reg, ws, meta, _, _, _, _, _, _, _, _, _, hsome, hst⟩
  · exact hskip cfg env2 st1 t h2 (hlast t h1)
  · refine hskip cfg env2 st1 t h2 ?_
    rw [hst]
    simpa [getMeta] using hsome t h1

/-- C7: the Rebuild Metadata file is written last.  An error outcome of
`Create` always leaves the metadata file exactly as it was; when any of the
earlier outputs (index open/write, extension dictionary, tag dictionary)
fails, the only success outcome is the untouched skip; and a success that
changed anything wrote the index, both dictionaries and then the metadata. -/
theorem create_meta_written_last :
    (∀ cfg env st st', Create cfg env st = BuildResult.err st' →
        st'.metaFile = st.metaFile) ∧
      (∀ cfg env st st',
        (env.openIndexErr = true ∨ env.writeIndexErr = true ∨
            env.writeExtErr = true ∨ env.writeTagErr = true) →
        Create cfg env st = BuildResult.ok st' → st' = st) ∧
      (∀ cfg env st st', Create cfg env st = BuildResult.ok st' → st' ≠ st →
        ∃ reg ws meta, cfg.tagExpr = some reg ∧
          walkRoot (walkCtxOf (NewIndexCreator cfg) reg env.rootPath) env.root
            env.rootPath (walkSt0 (NewIndexCreator cfg)) = some ws ∧
          st' = { indexFile := some ws.recs, extFile := some ws.extMap,
                  tagFile := some (mapKeys ws.tagMap), metaFile := some meta }) := by
  refine ⟨fun cfg env st st' h => create_err_meta_unchanged cfg env st st' h, ?_, ?_⟩
  · intro cfg env st st' hflag h
    rcases create_ok_cases _ _ _ _ h with ⟨rfl, _⟩ |
      ⟨reg, ws, meta, _, _, f2, f3, f4, f5, _, _, _, _, _⟩
    · rfl
    · rcases hflag with hf | hf | hf | hf <;> simp_all
  · intro cfg env st st' h hne
    rcases create_ok_cases _ _ _ _ h with ⟨rfl, _⟩ |
      ⟨reg, ws, meta, hr, _, _, _, _, _, _, hw, _, _, hst⟩
    · exact absurd rfl hne
    · exact ⟨reg, ws, meta, hr, hw, hst⟩

/-- C10: when statting the source root fails, `Create` neither reports the
error nor skips: the full rebuild runs, and the persisted metadata carries
exactly the timestamps loaded at the start (the zero values when the
metadata file was missing or corrupt), not freshly observed ones. -/
theorem create_stat_error_rebuild (cfg : ScanConfig) (env : Env)
    (st : DataRootState) (reg : GoRegexp) (ws : WalkSt)
    (hstat : env.statRoot = none) (hreg : cfg.tagExpr = some reg)
    (hmk : env.mkdirErr = false) (hop : env.openIndexErr = false)
    (hwi : env.writeIndexErr = false) (hwe : env.writeExtErr = false)
    (hwt : env.writeTagErr = false) (hwm : env.writeMetaErr = false)
    (hw : walkRoot (walkCtxOf (NewIndexCreator cfg) reg env.rootPath) env.root
        env.rootPath (walkSt0 (NewIndexCreator cfg)) = some ws) :
    Create cfg env st = BuildResult.ok
      { indexFile := some ws.recs, extFile := some ws.extMap,
        tagFile := some (mapKeys ws.tagMap), metaFile := some (getMeta st) } := by
  simp [Create, hstat, createRest, hreg, hmk, hop, hwi, hw, hwe, hwt, hwm]

/-- C1 (amended): a file whose lower-cased extension is in the configured
ignore-extension set produces no record in the index; however the persisted
Extension Dictionary is the creator's working map, whose key set is exactly
the ignore-extension set plus the extensions of the indexed records (the
ignored keys keep their preloaded `true` marker and are not removed before
persisting). -/
theorem create_ext_exclusion (cfg : ScanConfig) (env : Env)
    (st st' : DataRootState) (recs : List FileInfo) (em : List (Str × Bool))
    (hok : Create cfg env st = BuildResult.ok st') (hne : st' ≠ st)
    (hidx : st'.indexFile = some recs) (hext : st'.extFile = some em) :
    (∀ fi ∈ recs, fi.ext ∉ cfg.ignoreExt) ∧
      (∀ e, mapHasKey em e = true ↔
        (e ∈ cfg.ignoreExt ∨ ∃ fi ∈ recs, fi.ext = e)) := by
  rcases create_ok_cases _ _ _ _ hok with ⟨rfl, _⟩ |
    ⟨reg, ws, meta, _, _, _, _, _, _, _, hw, _, _, hst⟩
  · exact absurd rfl hne
  · subst hst
    simp only [Option.some.injEq] at hidx hext
    subst hidx
    subst hext
    obtain ⟨new, hrecs, hlk, hkey⟩ := walkRoot_step _ _ _ _ _ hw
    have hnew : new = ws.recs := by
      simpa using hrecs.symm
    have hpre_lookup : ∀ e, e ∈ cfg.ignoreExt →
        mapLookup (walkSt0 (NewIndexCreator cfg)).extMap e = true := by
      intro e he
      simp only [walkSt0, NewIndexCreator]
      exact (foldl_mapInsert_true_lookup _ _ _).2 (Or.inl he)
    have hpre_key : ∀ e, mapHasKey (walkSt0 (NewIndexCreator cfg)).extMap e = true ↔
        e ∈ cfg.ignoreExt := by
      intro e
      simp only [walkSt0, NewIndexCreator]
      rw [foldl_mapInsert_true_hasKey]
      simp [mapHasKey]
    constructor
    · intro fi hfi hmem
      have h1 := (hlk fi.ext (hpre_lookup fi.ext hmem)).2 fi (by rw [hnew]; exact hfi)
      exact h1 rfl
    · intro e
      rw [hkey e, hpre_key e, hnew]

/-- Concrete build fixture: ignore extension `"txt"`, tag pattern
`\[(\w+)\]`, and a source root holding `a.md` and `b.txt`. -/
def idxCfg : ScanConfig :=
  { ignoreName := [], ignoreExt := [String.toList "txt"],
    tagExpr := some bracketWordReg }

def idxTree : FsTree :=
  FsTree.dir (String.toList "root") false
    (FsTree.file (String.toList "a.md") false
      (FsTree.file (String.toList "b.txt") false FsTree.nil))
    FsTree.nil

def idxEnv : Env :=
  { statRoot := none, now := 5, root := idxTree,
    rootPath := String.toList "/root", mkdirErr := false, openIndexErr := false,
    writeIndexErr := false, writeExtErr := false, writeTagErr := false,
    writeMetaErr := false }

def idxSt0 : DataRootState :=
  { indexFile := none, extFile := none, tagFile := none, metaFile := none }

def idxRec : FileInfo :=
  { name := String.toList "a.md", path := String.toList "/a.md",
    tags := [], ext := String.toList "md" }

def idxExtList : List (Str × Bool) :=
  [(String.toList "txt", true), (String.toList "md", false)]

def idxOut : DataRootState :=
  { indexFile := some [idxRec], extFile := some idxExtList,
    tagFile := some [], metaFile := some { lastUpdate := 0, createTime := 0 } }

/-- C1 (counterexample): after this build, the ignored extension `"txt"`
(whose only file `b.txt` was indeed excluded from the index) still appears
as a key of the persisted Extension Dictionary, with its preloaded `true`
marker — contradicting the claim that it does not appear there and that the
dictionary holds exactly the observed extensions. -/
theorem create_ignored_ext_in_dict_cex :
    Create idxCfg idxEnv idxSt0 = BuildResult.ok idxOut ∧
      String.toList "txt" ∈ idxCfg.ignoreExt ∧
      idxOut.extFile = some idxExtList ∧
      mapHasKey idxExtList (String.toList "txt") = true ∧
      idxOut.indexFile = some [idxRec] ∧
      idxRec.ext = String.toList "md" := by
  refine ⟨by decide, by decide, by decide, by decide, by decide, by decide⟩

/-- C1 witness: the amended theorem applied to the concrete build; the one
indexed record does not carry an ignored extension. -/
theorem create_ext_exclusion_witness :
    idxRec.ext ∉ idxCfg.ignoreExt :=
  (create_ext_exclusion idxCfg idxEnv idxSt0 idxOut [idxRec] idxExtList
    (by decide) (by decide) (by decide) (by decide)).1 idxRec (by decide)

def idxStMeta : DataRootState :=
  { indexFile := none, extFile := none, tagFile := none,
    metaFile := some { lastUpdate := 7, createTime := 3 } }

def idxEnv7 : Env := { idxEnv with statRoot := some 7 }

/-- C2 witness: with the stored `last_update` equal to the observed
modification time, `Create` succeeds and leaves the data root untouched. -/
theorem create_skip_idempotent_witness :
    Create idxCfg idxEnv7 idxStMeta = BuildResult.ok idxStMeta :=
  create_skip_idempotent.1 idxCfg idxEnv7 idxStMeta 7 (by decide) (by decide)

def idxEnvExtErr : Env := { idxEnv with writeExtErr := true }

def idxStErr : DataRootState :=
  { indexFile := some [idxRec], extFile := none, tagFile := none,
    metaFile := none }

/-- C7 witness: a build whose extension-dictionary write fails returns an
error whose data-root state keeps the metadata file untouched. -/
theorem create_meta_written_last_witness :
    idxStErr.metaFile = idxSt0.metaFile :=
  create_meta_written_last.1 idxCfg idxEnvExtErr idxSt0 idxStErr (by decide)

def idxWs : WalkSt :=
  { recs := [idxRec], extMap := idxExtList, tagMap := [] }

/-- C10 witness: with a failing root stat and no write faults, the rebuild
runs and persists metadata equal to the loaded (zero-valued) metadata. -/
theorem create_stat_error_rebuild_witness :
    Create idxCfg idxEnv idxSt0 = BuildResult.ok
      { indexFile := some idxWs.recs, extFile := some idxWs.extMap,
        tagFile := some (mapKeys idxWs.tagMap), metaFile := some (getMeta idxSt0) } :=
  create_stat_error_rebuild idxCfg idxEnv idxSt0 bracketWordReg idxWs
    rfl rfl rfl rfl rfl rfl rfl rfl (by decide)
